import Mathlib

/-!
# kind: kubeconfig path resolution

A shallow embedding of `pkg/internal/util/kubeconfig/paths.go`.

Go strings are modelled as Lean `String`s. The only byte-level operations the
code performs compare against the ASCII bytes `:`, `/` and `.`, which never
occur inside a multi-byte UTF-8 sequence, so working on characters agrees with
working on bytes.

A function that can panic at run time returns `Except Panic _`.
-/

namespace kubeconfig

/-! ## Standard-library collaborators -/

/-- Run-time panics that the modelled code can raise. -/
inductive Panic where
  | nilDereference
  | indexOutOfRange
  deriving DecidableEq, Repr

/-- The errors `os.Stat` can report; only `notExist` satisfies `os.IsNotExist`. -/
inductive StatError where
  | notExist
  | permission
  | notDir
  deriving DecidableEq, Repr

/-- The part of `os.FileInfo` that the code looks at. -/
structure FileInfo where
  isDir : Bool
  deriving DecidableEq, Repr

/-- A filesystem state, as seen through `stat`. -/
abbrev FileSystem := String → Except StatError FileInfo

/-- `os.Stat`: on success the info is non-nil and the error nil; on failure
the info is nil and the error non-nil. -/
def osStat (fs : FileSystem) (name : String) : Option FileInfo × Option StatError :=
  match fs name with
  | .ok info => (some info, none)
  | .error err => (none, some err)

/-- `os.IsNotExist`: false on a nil error. -/
def osIsNotExist : Option StatError → Bool
  | some .notExist => true
  | _ => false

/-- `os.PathListSeparator` on Unix. -/
def PathListSeparator : Char := ':'

/-- `strings.Split` for a one-character separator, on the characters of the string;
`cur` holds the current piece, reversed. -/
def stringsSplit (sep : Char) : List Char → List Char → List (List Char)
  | cur, [] => [cur.reverse]
  | cur, c :: cs =>
    if c = sep then cur.reverse :: stringsSplit sep [] cs
    else stringsSplit sep (c :: cur) cs

/-- `filepath.SplitList` on Unix: the empty string gives the empty list,
anything else is split on the list separator. -/
def SplitList (path : String) : List String :=
  if path = "" then []
  else (stringsSplit PathListSeparator [] path.data).map String.mk

/-- The backtracking of `path.Clean` on a `..` element: after `out.w--` dropped
the byte `dropped`, keep dropping while `out.w > dotdot` and the byte just
dropped is not a slash. The buffer is held reversed. -/
def cleanBacktrack (dotdot : Nat) : Char → List Char → List Char
  | _, [] => []
  | dropped, c :: rest =>
    if (c :: rest).length > dotdot ∧ dropped ≠ '/' then cleanBacktrack dotdot c rest
    else c :: rest

/-- The `..` case of `path.Clean`: returns the new (reversed) buffer and `dotdot`. -/
def cleanDotDot (rooted : Bool) (out : List Char) (dotdot : Nat) : List Char × Nat :=
  if out.length > dotdot then
    match out with
    | [] => ([], dotdot)
    | c :: rest => (cleanBacktrack dotdot c rest, dotdot)
  else if !rooted then
    let out1 := if out.length > 0 then '/' :: out else out
    let out2 := '.' :: '.' :: out1
    (out2, out2.length)
  else (out, dotdot)

/-- The separator `path.Clean` writes before copying a real path element. -/
def cleanSep (rooted : Bool) (out : List Char) : List Char :=
  if (rooted ∧ out.length ≠ 1) ∨ (¬ rooted ∧ out.length ≠ 0) then '/' :: out else out

/-- The main loop of `path.Clean` over the unread input. The flag says whether
the loop is inside the copy of a real element (the inner `for` of the default
case); `out` is the output buffer, reversed. -/
def cleanLoop (rooted : Bool) : Bool → List Char → List Char → Nat → List Char
  | _, [], out, _ => out
  | true, c :: t, out, dotdot =>
    if c = '/' then cleanLoop rooted false t out dotdot
    else cleanLoop rooted true t (c :: out) dotdot
  | false, c :: t, out, dotdot =>
    if c = '/' then cleanLoop rooted false t out dotdot
    else if c = '.' then
      match t with
      | [] => out
      | d :: u =>
        if d = '/' then cleanLoop rooted false u out dotdot
        else if d = '.' then
          match u with
          | [] => (cleanDotDot rooted out dotdot).1
          | e :: v =>
            if e = '/' then
              cleanLoop rooted false v (cleanDotDot rooted out dotdot).1
                (cleanDotDot rooted out dotdot).2
            else cleanLoop rooted true v (e :: '.' :: '.' :: cleanSep rooted out) dotdot
        else cleanLoop rooted true u (d :: '.' :: cleanSep rooted out) dotdot
    else cleanLoop rooted true t (c :: cleanSep rooted out) dotdot

/-- `path.Clean`. -/
def pathClean (path : String) : String :=
  if path = "" then "."
  else
    let out :=
      if path.data.head? = some '/' then cleanLoop true false path.data.tail ['/'] 1
      else cleanLoop false false path.data [] 0
    if out.length = 0 then "." else String.mk out.reverse

/-- `path.Join`: the non-empty elements joined with slashes, then cleaned; the
empty string when every element is empty. -/
def pathJoin (elem : List String) : String :=
  if (elem.map String.length).sum = 0 then ""
  else
    pathClean (elem.foldl (fun buf e =>
      if buf.length > 0 ∨ e ≠ "" then (if buf.length > 0 then buf ++ "/" else buf) ++ e
      else buf) "")

/-- Slice indexing `p[i]`, which panics out of range. -/
def sliceIndex (p : List String) (i : Nat) : Except Panic String :=
  match p.get? i with
  | some s => .ok s
  | none => .error .indexOutOfRange

/-! ## The package -/

/-- The name of the environment variable. -/
def kubeconfigEnv : String := "KUBECONFIG"

/-- The state of the loop of `discardEmptyAndDuplicates`: the backing array of
the slice (written in place), the number of kept entries and the set `seen`. -/
structure DiscardState where
  paths : List String
  kept : Nat
  seen : List String
  deriving DecidableEq, Repr

/-- One iteration of the loop of `discardEmptyAndDuplicates`, at index `i`:
`p` is read from the (possibly already overwritten) backing array. -/
def discardStep (st : DiscardState) (i : Nat) : DiscardState :=
  let p := st.paths.getD i ""
  if p ≠ "" ∧ ¬ p ∈ st.seen then
    { paths := st.paths.set st.kept p, kept := st.kept + 1, seen := p :: st.seen }
  else st

/-- `discardEmptyAndDuplicates`: the loop runs over the indices of the slice
and the result is `paths[:kept]`. -/
def discardEmptyAndDuplicates (paths : List String) : List String :=
  let st := (List.range paths.length).foldl discardStep ⟨paths, 0, []⟩
  st.paths.take st.kept

/-- `paths`: the kubeconfig candidates; `homeDir` is the value `homeDir()` returns. -/
def paths (homeDir : String) (explicitPath : String) (getEnv : String → String) :
    List String :=
  if explicitPath ≠ "" then [explicitPath]
  else
    let paths := discardEmptyAndDuplicates (SplitList (getEnv kubeconfigEnv))
    if paths.length ≠ 0 then paths
    else [pathJoin [homeDir, ".kube", "config"]]

/-- `fileExists`: a stat error other than not-exist leaves `info` nil, and the
call `info.IsDir()` panics. -/
def fileExists (fs : FileSystem) (filename : String) : Except Panic Bool :=
  let (info, err) := osStat fs filename
  if osIsNotExist err then .ok false
  else
    match info with
    | none => .error .nilDereference
    | some i => .ok (!i.isDir)

/-- The `for ... range p` loop of `pathForMerge`: the first filename for which
`fileExists` holds, if the loop returns one. -/
def firstExisting (fs : FileSystem) : List String → Except Panic (Option String)
  | [] => .ok none
  | filename :: rest =>
    match fileExists fs filename with
    | .error e => .error e
    | .ok true => .ok (some filename)
    | .ok false => firstExisting fs rest

/-- The process environment of `pathForMerge`: `os.Getenv`, the value of
`homeDir()` and the filesystem. -/
structure World where
  Getenv : String → String
  homeDir : String
  fs : FileSystem

/-- `pathForMerge`. -/
def pathForMerge (w : World) (explicitPath : String) : Except Panic String :=
  let p := paths w.homeDir explicitPath w.Getenv
  if p.length = 1 then sliceIndex p 0
  else
    match firstExisting w.fs p with
    | .error e => .error e
    | .ok (some filename) => .ok filename
    | .ok none => sliceIndex p (p.length - 1)

/-! ## The specification's wording of the candidate list -/

/-- The list with every empty entry and every entry equal to an earlier
entry removed; `earlier` holds the entries already passed. -/
def removeEmptyAndRepeated (earlier : List String) : List String → List String
  | [] => []
  | p :: ps =>
    if p = "" ∨ p ∈ earlier then removeEmptyAndRepeated (p :: earlier) ps
    else p :: removeEmptyAndRepeated (p :: earlier) ps


/-- The loop of `discardEmptyAndDuplicates` as a fold that appends kept entries. -/
def keepFold (acc : List String) (ps : List String) : List String :=
  ps.foldl (fun acc p => if p ≠ "" ∧ ¬ p ∈ acc then acc ++ [p] else acc) acc

/-- The loop state after the first `i` iterations. -/
def discardLoop (orig : List String) (i : Nat) : DiscardState :=
  (List.range i).foldl discardStep ⟨orig, 0, []⟩

/-- A getenv in which only `KUBECONFIG` is set. -/
def envWith (kubeconfig : String) : String → String :=
  fun name => if name = kubeconfigEnv then kubeconfig else ""

/-- A world where `/etc/passwd` is a file, so that a stat below it fails with
ENOTDIR, and `/tmp/kubeconfig` is a regular file. -/
def worldNotDirFirst : World where
  Getenv := envWith "/etc/passwd/config:/tmp/kubeconfig"
  homeDir := "/home/user"
  fs := fun f =>
    if f = "/etc/passwd/config" then .error .notDir
    else if f = "/tmp/kubeconfig" then .ok ⟨false⟩
    else .error .notExist

/-- A world where no candidate is a regular file: the first sits in a directory
that may not be searched, the others do not exist. -/
def worldNoneExists : World where
  Getenv := envWith "/root/.kube/config:/tmp/a:/tmp/b"
  homeDir := "/home/user"
  fs := fun f => if f = "/root/.kube/config" then .error .permission else .error .notExist

/-- A world where the second candidate cannot be statted. -/
def worldPermissionSecond : World where
  Getenv := envWith "/tmp/missing:/root/.kube/config"
  homeDir := "/home/user"
  fs := fun f => if f = "/root/.kube/config" then .error .permission else .error .notExist

/-- A world where the first candidate is a directory and the second a regular file. -/
def worldDirFirst : World where
  Getenv := envWith "/tmp/dir:/tmp/file"
  homeDir := "/home/user"
  fs := fun f =>
    if f = "/tmp/dir" then .ok ⟨true⟩
    else if f = "/tmp/file" then .ok ⟨false⟩
    else .error .notExist

/-- The filesystem `fs` with `name` removed. -/
def removeFile (fs : FileSystem) (name : String) : FileSystem :=
  fun f => if f = name then .error .notExist else fs f

/-- The first candidate that is a regular file, on a filesystem read directly. -/
def firstRegular (fs : FileSystem) (p : List String) : Option String :=
  p.find? (fun f => match fs f with
    | .ok info => !info.isDir
    | .error _ => false)

end kubeconfig

/-!
# kind: JSON codecs of the `v1alpha3` configuration types

A shallow embedding of `pkg/apis/config/v1alpha3/json.go`.

The declarations of `Mount` and `PortMapping`, of the enum types and of the four
lookup tables live outside this file. The tables and `strings.ToUpper` are
parameters of the functions that use them; the fields of a struct other than its
enum field are a value of a type parameter, with their default (de)serialization
a parameter too.

A JSON text is modelled by what `encoding/json` reads from it for the auxiliary
struct: whether it is valid, whether it is an object, what the object holds under
the key of the enum field and what it holds for the other fields.
-/

namespace v1alpha3

/-- Run-time panics that the modelled code can raise. -/
inductive Panic where
  | nilDereference
  deriving DecidableEq, Repr

/-- The argument of a `fmt.Errorf` call with one verb. -/
inductive FmtArg where
  | int (v : Int)
  | string (s : String)
  deriving DecidableEq, Repr

/-- The errors of the codecs: one built by `fmt.Errorf` from a format and its
argument, or one returned by `encoding/json`. -/
inductive Error where
  | errorf (format : String) (arg : FmtArg)
  | json
  deriving DecidableEq, Repr

/-- What a JSON object holds under the key of the enum field: nothing, `null`,
a string, or a value of another JSON type. -/
inductive Field where
  | absent
  | null
  | string (s : String)
  | mistyped
  deriving DecidableEq, Repr

/-- A JSON object: the member of the enum field and the other members. -/
structure Object (ρ : Type) where
  field : Field
  rest : ρ

/-- A JSON text (`[]byte`): invalid, the literal `null`, another value that is not
an object, or an object. -/
inductive Data (ρ : Type) where
  | invalid
  | null
  | nonObject
  | object (o : Object ρ)

/-- Default JSON (de)serialization of the fields of a struct other than its enum
field. Decoding writes into the fields and reports whether it recorded a type
error; it decodes without error what encoding produced. -/
structure DefaultCodec (σ ρ : Type) where
  marshal : σ → ρ
  unmarshal : ρ → σ → σ × Bool
  accepts : ∀ s t, (unmarshal (marshal s) t).2 = false

/-- The variables reached from `aux`: its own string field and, through the
embedded `*Alias`, the other fields of the receiver. The enum field of `Alias` is
hidden from JSON by the shallower field of the same name. -/
structure Aux (σ : Type) where
  field : String
  siblings : σ

/-- `json.Marshal` of the auxiliary struct: the string field is always written. -/
def jsonMarshal {σ ρ : Type} (codec : DefaultCodec σ ρ) (aux : Aux σ) : Data ρ :=
  .object ⟨.string aux.field, codec.marshal aux.siblings⟩

/-- `json.Unmarshal(data, &aux)`: returns the variables reached from `aux`
(`none` when the pointer `aux` itself was set to nil, as the literal `null` does)
and the error. A type error does not stop the decoding of the other members. -/
def jsonUnmarshal {σ ρ : Type} (codec : DefaultCodec σ ρ) (data : Data ρ) (aux : Aux σ) :
    Option (Aux σ) × Option Error :=
  match data with
  | .invalid => (some aux, some .json)
  | .null => (none, none)
  | .nonObject => (some aux, some .json)
  | .object o =>
    let r := codec.unmarshal o.rest aux.siblings
    match o.field with
    | .absent => (some ⟨aux.field, r.1⟩, if r.2 then some .json else none)
    | .null => (some ⟨aux.field, r.1⟩, if r.2 then some .json else none)
    | .string s => (some ⟨s, r.1⟩, if r.2 then some .json else none)
    | .mistyped => (some ⟨aux.field, r.1⟩, some .json)

/-- `Mount`: the enum field and the other fields. -/
structure Mount (σ : Type) where
  Propagation : Int
  siblings : σ

/-- `PortMapping`: the enum field and the other fields. -/
structure PortMapping (σ : Type) where
  Protocol : Int
  siblings : σ

/-- `(*Mount).MarshalJSON`; the table is a map lookup. -/
def Mount.MarshalJSON {σ ρ : Type} (MountPropagationValueToName : Int → Option String)
    (codec : DefaultCodec σ ρ) (m : Mount σ) : Except Error (Data ρ) :=
  match MountPropagationValueToName m.Propagation with
  | none => .error (.errorf "unknown propagation value: %v" (.int m.Propagation))
  | some name => .ok (jsonMarshal codec ⟨name, m.siblings⟩)

/-- `(*Mount).UnmarshalJSON`: returns the receiver after the call and the error,
or panics. -/
def Mount.UnmarshalJSON {σ ρ : Type} (MountPropagationNameToValue : String → Option Int)
    (codec : DefaultCodec σ ρ) (m : Mount σ) (data : Data ρ) :
    Except Panic (Mount σ × Option Error) :=
  match jsonUnmarshal codec data ⟨"", m.siblings⟩ with
  | (some aux, some err) => .ok (⟨m.Propagation, aux.siblings⟩, some err)
  | (none, some err) => .ok (m, some err)
  | (none, none) => .error .nilDereference
  | (some aux, none) =>
    if aux.field ≠ "" then
      match MountPropagationNameToValue aux.field with
      | none =>
        .ok (⟨m.Propagation, aux.siblings⟩,
          some (.errorf "unknown propagation value: %s" (.string aux.field)))
      | some val => .ok (⟨val, aux.siblings⟩, none)
    else .ok (⟨m.Propagation, aux.siblings⟩, none)

/-- `(*PortMapping).MarshalJSON`; the table is a map lookup. -/
def PortMapping.MarshalJSON {σ ρ : Type} (PortMappingProtocolValueToName : Int → Option String)
    (codec : DefaultCodec σ ρ) (p : PortMapping σ) : Except Error (Data ρ) :=
  match PortMappingProtocolValueToName p.Protocol with
  | none => .error (.errorf "unknown protocol value: %v" (.int p.Protocol))
  | some name => .ok (jsonMarshal codec ⟨name, p.siblings⟩)

/-- `(*PortMapping).UnmarshalJSON`: returns the receiver after the call and the
error, or panics. `ToUpper` is `strings.ToUpper`. -/
def PortMapping.UnmarshalJSON {σ ρ : Type} (PortMappingProtocolNameToValue : String → Option Int)
    (ToUpper : String → String) (codec : DefaultCodec σ ρ) (p : PortMapping σ)
    (data : Data ρ) : Except Panic (PortMapping σ × Option Error) :=
  match jsonUnmarshal codec data ⟨"", p.siblings⟩ with
  | (some aux, some err) => .ok (⟨p.Protocol, aux.siblings⟩, some err)
  | (none, some err) => .ok (p, some err)
  | (none, none) => .error .nilDereference
  | (some aux, none) =>
    if aux.field ≠ "" then
      match PortMappingProtocolNameToValue (ToUpper aux.field) with
      | none =>
        .ok (⟨p.Protocol, aux.siblings⟩,
          some (.errorf "unknown protocol value: %s" (.string aux.field)))
      | some val => .ok (⟨val, aux.siblings⟩, none)
    else .ok (⟨p.Protocol, aux.siblings⟩, none)

/-! ## Instances used in examples -/

/-- Modelled from the spec: the one entry of the propagation value-to-name table
that the spec gives, value 2 named `Bidirectional`. The table itself is declared
outside this file. -/
def specPropagationValueToName : Int → Option String :=
  fun v => if v = 2 then some "Bidirectional" else none

/-- Modelled from the spec: the one entry of the propagation name-to-value table
that the spec gives. The table itself is declared outside this file. -/
def specPropagationNameToValue : String → Option Int :=
  fun s => if s = "Bidirectional" then some 2 else none

/-- Modelled from the spec: the one entry of the protocol value-to-name table that
the spec gives, TCP named `TCP`; the spec gives no number for TCP and 0 stands
for it. The table itself is declared outside this file. -/
def specProtocolValueToName : Int → Option String :=
  fun v => if v = 0 then some "TCP" else none

/-- Modelled from the spec: the one entry of the protocol name-to-value table that
the spec gives. The table itself is declared outside this file. -/
def specProtocolNameToValue : String → Option Int :=
  fun s => if s = "TCP" then some 0 else none

/-- Upper-casing of the ASCII letters, which is what `strings.ToUpper` does on an
ASCII string. -/
def asciiToUpper (s : String) : String := String.mk (s.data.map Char.toUpper)

/-- An example of the other fields of a struct: one string field written with
`omitempty`, so an empty string is left out of the object and a missing member
leaves the target as it was. -/
def stringFieldCodec : DefaultCodec String Field where
  marshal := fun s => if s = "" then .absent else .string s
  unmarshal := fun f t =>
    match f with
    | .absent => (t, false)
    | .null => (t, false)
    | .string s => (s, false)
    | .mistyped => (t, true)
  accepts := by
    intro s t
    by_cases h : s = "" <;> simp [h]

/-- A value-to-name table in which the value 0 has the empty name. -/
def emptyNameValueToName : Int → Option String :=
  fun v => if v = 0 then some "" else if v = 1 then some "HostToContainer" else none

/-- The name-to-value table inverse to `emptyNameValueToName`. -/
def emptyNameNameToValue : String → Option Int :=
  fun s => if s = "" then some 0 else if s = "HostToContainer" then some 1 else none

/-- A value-to-name table whose canonical name is in lower case. -/
def lowerCaseValueToName : Int → Option String :=
  fun v => if v = 0 then some "tcp" else none

/-- The name-to-value table inverse to `lowerCaseValueToName`. -/
def lowerCaseNameToValue : String → Option Int :=
  fun s => if s = "tcp" then some 0 else none

end v1alpha3

namespace kubeconfig

theorem take_succ_set (l : List String) (k : Nat) (p : String) (hk : k < l.length) :
    (l.set k p).take (k + 1) = l.take k ++ [p] := by
  induction l generalizing k with
  | nil => simp at hk
  | cons a l ih =>
    cases k with
    | zero => simp
    | succ k =>
      simp only [List.length_cons, Nat.add_lt_add_iff_right] at hk
      simp [ih k hk]

theorem keepFold_snoc (acc ps : List String) (p : String) :
    keepFold acc (ps ++ [p]) =
      if p ≠ "" ∧ ¬ p ∈ keepFold acc ps then keepFold acc ps ++ [p] else keepFold acc ps := by
  simp [keepFold, List.foldl_append]

theorem discardLoop_succ (orig : List String) (i : Nat) :
    discardLoop orig (i + 1) = discardStep (discardLoop orig i) i := by
  simp [discardLoop, List.range_succ, List.foldl_append]

theorem discardLoop_inv (orig : List String) (i : Nat) (hi : i ≤ orig.length) :
    (discardLoop orig i).paths.length = orig.length ∧
    (discardLoop orig i).kept ≤ i ∧
    (∀ j, i ≤ j → (discardLoop orig i).paths[j]? = orig[j]?) ∧
    (discardLoop orig i).paths.take (discardLoop orig i).kept = keepFold [] (orig.take i) ∧
    (∀ x, x ∈ (discardLoop orig i).seen ↔
      x ∈ (discardLoop orig i).paths.take (discardLoop orig i).kept) := by
  induction i with
  | zero => simp [discardLoop, keepFold]
  | succ i ih =>
    have hlt : i < orig.length := hi
    obtain ⟨hlen, hkept, hread, htake, hseen⟩ := ih (Nat.le_of_lt hlt)
    rw [discardLoop_succ]
    generalize discardLoop orig i = st at hlen hkept hread htake hseen
    have hp : st.paths.getD i "" = orig[i] := by
      rw [List.getD_eq_getElem?_getD, hread i (le_refl i), List.getElem?_eq_getElem hlt]
      rfl
    have hsnoc : orig.take (i + 1) = orig.take i ++ [orig[i]] := by
      rw [List.take_succ, List.getElem?_eq_getElem hlt]; rfl
    have hmem : orig[i] ∈ st.seen ↔ orig[i] ∈ keepFold [] (orig.take i) := by
      rw [hseen, htake]
    unfold discardStep
    simp only [hp]
    rw [hsnoc, keepFold_snoc, ← htake]
    by_cases hc : orig[i] ≠ "" ∧ ¬ orig[i] ∈ st.seen
    · have hc2 : orig[i] ≠ "" ∧ ¬ orig[i] ∈ List.take st.kept st.paths := by
        rw [← hseen]; exact hc
      rw [if_pos hc, if_pos hc2]
      have hk : st.kept < st.paths.length := by omega
      refine ⟨by simp [hlen], by simp; omega, ?_, take_succ_set _ _ _ hk, ?_⟩
      · intro j hj
        simp only
        rw [List.getElem?_set_ne (by omega)]
        exact hread j (by omega)
      · intro x
        simp only [take_succ_set _ _ _ hk, List.mem_cons, List.mem_append, List.mem_singleton,
          hseen x]
        tauto
    · have hc2 : ¬ (orig[i] ≠ "" ∧ ¬ orig[i] ∈ List.take st.kept st.paths) := by
        rw [← hseen]; exact hc
      rw [if_neg hc, if_neg hc2]
      exact ⟨hlen, by omega, fun j hj => hread j (by omega), rfl, hseen⟩

theorem discardEmptyAndDuplicates_eq_keepFold (ps : List String) :
    discardEmptyAndDuplicates ps = keepFold [] ps := by
  have h := (discardLoop_inv ps ps.length (le_refl _)).2.2.2.1
  simpa [discardEmptyAndDuplicates, discardLoop] using h


theorem keepFold_eq_append (acc earlier ps : List String)
    (h : ∀ x, x ≠ "" → (x ∈ acc ↔ x ∈ earlier)) :
    keepFold acc ps = acc ++ removeEmptyAndRepeated earlier ps := by
  induction ps generalizing acc earlier with
  | nil => simp [keepFold, removeEmptyAndRepeated]
  | cons p ps ih =>
    have hstep : keepFold acc (p :: ps) =
        keepFold (if p ≠ "" ∧ ¬ p ∈ acc then acc ++ [p] else acc) ps := by
      simp [keepFold]
    rw [hstep]
    by_cases hp : p = ""
    · have hc : ¬ (p ≠ "" ∧ ¬ p ∈ acc) := fun hh => hh.1 hp
      rw [if_neg hc, removeEmptyAndRepeated, if_pos (Or.inl hp)]
      apply ih
      intro x hx
      have hxp : x ≠ p := by rw [hp]; exact hx
      simp [h x hx, hxp]
    · by_cases hmem : p ∈ acc
      · have hc : ¬ (p ≠ "" ∧ ¬ p ∈ acc) := fun hh => hh.2 hmem
        rw [if_neg hc, removeEmptyAndRepeated, if_pos (Or.inr ((h p hp).1 hmem))]
        apply ih
        intro x hx
        constructor
        · intro hxa; exact List.mem_cons_of_mem _ ((h x hx).1 hxa)
        · intro hxe
          rcases List.mem_cons.1 hxe with rfl | hxe
          · exact hmem
          · exact (h x hx).2 hxe
      · have hne : ¬ (p = "" ∨ p ∈ earlier) := by
          rintro (h1 | h2)
          · exact hp h1
          · exact hmem ((h p hp).2 h2)
        rw [if_pos ⟨hp, hmem⟩, removeEmptyAndRepeated, if_neg hne,
          ih (acc ++ [p]) (p :: earlier), List.append_assoc]
        · rfl
        · intro x hx
          simp only [List.mem_append, List.mem_singleton, List.mem_cons, h x hx]
          tauto

theorem discardEmptyAndDuplicates_eq_spec (ps : List String) :
    discardEmptyAndDuplicates ps = removeEmptyAndRepeated [] ps := by
  rw [discardEmptyAndDuplicates_eq_keepFold, keepFold_eq_append [] [] ps (fun _ _ => Iff.rfl)]
  rfl

theorem mem_keepFold (acc ps : List String) (x : String) :
    x ∈ keepFold acc ps ↔ x ∈ acc ∨ (x ≠ "" ∧ x ∈ ps) := by
  induction ps generalizing acc with
  | nil => simp [keepFold]
  | cons p ps ih =>
    have hstep : keepFold acc (p :: ps) =
        keepFold (if p ≠ "" ∧ ¬ p ∈ acc then acc ++ [p] else acc) ps := by
      simp [keepFold]
    rw [hstep, ih]
    by_cases hc : p ≠ "" ∧ ¬ p ∈ acc
    · rw [if_pos hc]
      simp only [List.mem_append, List.mem_cons, List.not_mem_nil, or_false]
      constructor
      · rintro ((h | h) | h)
        · exact Or.inl h
        · exact Or.inr ⟨h ▸ hc.1, Or.inl h⟩
        · exact Or.inr ⟨h.1, Or.inr h.2⟩
      · rintro (h | ⟨h1, h2 | h2⟩)
        · exact Or.inl (Or.inl h)
        · exact Or.inl (Or.inr h2)
        · exact Or.inr ⟨h1, h2⟩
    · rw [if_neg hc]
      simp only [List.mem_cons]
      constructor
      · rintro (h | h)
        · exact Or.inl h
        · exact Or.inr ⟨h.1, Or.inr h.2⟩
      · rintro (h | ⟨h1, h2 | h2⟩)
        · exact Or.inl h
        · by_cases hm : p ∈ acc
          · exact Or.inl (h2 ▸ hm)
          · exact absurd ⟨h2 ▸ h1, hm⟩ hc
        · exact Or.inr ⟨h1, h2⟩

theorem nodup_keepFold (acc ps : List String) (h : acc.Nodup) : (keepFold acc ps).Nodup := by
  induction ps generalizing acc with
  | nil => simpa [keepFold] using h
  | cons p ps ih =>
    have hstep : keepFold acc (p :: ps) =
        keepFold (if p ≠ "" ∧ ¬ p ∈ acc then acc ++ [p] else acc) ps := by
      simp [keepFold]
    rw [hstep]
    apply ih
    by_cases hc : p ≠ "" ∧ ¬ p ∈ acc
    · rw [if_pos hc]
      rw [List.nodup_append]
      refine ⟨h, List.nodup_singleton p, ?_⟩
      intro a ha hb
      rw [List.mem_singleton] at hb
      exact hc.2 (hb ▸ ha)
    · rw [if_neg hc]; exact h

theorem mem_discardEmptyAndDuplicates (ps : List String) (x : String) :
    x ∈ discardEmptyAndDuplicates ps ↔ x ≠ "" ∧ x ∈ ps := by
  rw [discardEmptyAndDuplicates_eq_keepFold, mem_keepFold]
  simp

theorem nodup_discardEmptyAndDuplicates (ps : List String) :
    (discardEmptyAndDuplicates ps).Nodup := by
  rw [discardEmptyAndDuplicates_eq_keepFold]
  exact nodup_keepFold [] ps List.nodup_nil

theorem discardEmptyAndDuplicates_eq_nil (ps : List String) :
    discardEmptyAndDuplicates ps = [] ↔ ∀ x ∈ ps, x = "" := by
  rw [List.eq_nil_iff_forall_not_mem]
  constructor
  · intro h x hx
    by_contra hne
    exact h x ((mem_discardEmptyAndDuplicates ps x).2 ⟨hne, hx⟩)
  · intro h x hx
    have := (mem_discardEmptyAndDuplicates ps x).1 hx
    exact this.1 (h x this.2)

theorem mk_reverse_ne_empty (out : List Char) (h : ¬ out.length = 0) :
    String.mk out.reverse ≠ "" := by
  intro hmk
  apply h
  have := congrArg String.length hmk
  simpa using this

theorem pathClean_ne_empty (path : String) : pathClean path ≠ "" := by
  simp only [pathClean]
  split_ifs with h1 h2 h3 h4
  · decide
  · decide
  · exact mk_reverse_ne_empty _ h3
  · decide
  · exact mk_reverse_ne_empty _ h4

theorem pathJoin_home_ne_empty (homeDir : String) :
    pathJoin [homeDir, ".kube", "config"] ≠ "" := by
  unfold pathJoin
  have hsum : ¬ ((List.map String.length [homeDir, ".kube", "config"]).sum = 0) := by
    have h1 : (".kube" : String).length = 5 := by decide
    simp only [List.map_cons, List.map_nil, List.sum_cons, List.sum_nil, h1]
    omega
  rw [if_neg hsum]
  exact pathClean_ne_empty _


/-! ## `fileExists` and `pathForMerge` -/

theorem fileExists_of_ok (fs : FileSystem) (f : String) (info : FileInfo)
    (h : fs f = .ok info) : fileExists fs f = .ok (!info.isDir) := by
  simp [fileExists, osStat, h, osIsNotExist]

theorem fileExists_of_notExist (fs : FileSystem) (f : String)
    (h : fs f = .error .notExist) : fileExists fs f = .ok false := by
  simp [fileExists, osStat, h, osIsNotExist]

theorem fileExists_of_other_error (fs : FileSystem) (f : String) (e : StatError)
    (h : fs f = .error e) (he : e ≠ .notExist) : fileExists fs f = .error .nilDereference := by
  cases e with
  | notExist => exact absurd rfl he
  | permission => simp [fileExists, osStat, h, osIsNotExist]
  | notDir => simp [fileExists, osStat, h, osIsNotExist]

theorem fileExists_error (fs : FileSystem) (f : String) (e : Panic)
    (h : fileExists fs f = .error e) : e = .nilDereference := by
  unfold fileExists osStat at h
  cases hf : fs f with
  | ok info => simp [hf, osIsNotExist] at h
  | error err =>
    cases err <;> simp [hf, osIsNotExist] at h <;> exact h.symm

theorem firstExisting_congr (fs fs2 : FileSystem) (p : List String)
    (h : ∀ f ∈ p, fileExists fs f = fileExists fs2 f) :
    firstExisting fs p = firstExisting fs2 p := by
  induction p with
  | nil => rfl
  | cons f rest ih =>
    have hf := h f (List.mem_cons_self f rest)
    have hrest := ih (fun g hg => h g (List.mem_cons_of_mem f hg))
    simp only [firstExisting, hf, hrest]

theorem firstExisting_error (fs : FileSystem) (p : List String) (e : Panic)
    (h : firstExisting fs p = .error e) : e = .nilDereference := by
  induction p with
  | nil => simp [firstExisting] at h
  | cons f rest ih =>
    unfold firstExisting at h
    cases hf : fileExists fs f with
    | error e2 =>
      rw [hf] at h
      simp only [Except.error.injEq] at h
      exact h ▸ fileExists_error fs f e2 hf
    | ok b =>
      rw [hf] at h
      cases b with
      | true => simp at h
      | false => exact ih h

/-- On a filesystem where every candidate either stats or does not exist, the
loop of `pathForMerge` finds the first regular file. -/
theorem firstExisting_of_no_other_error (fs : FileSystem) (p : List String)
    (h : ∀ f ∈ p, ∀ e, fs f = .error e → e = .notExist) :
    firstExisting fs p = .ok (firstRegular fs p) := by
  induction p with
  | nil => rfl
  | cons f rest ih =>
    have hrest := ih (fun g hg => h g (List.mem_cons_of_mem f hg))
    cases hf : fs f with
    | ok info =>
      cases hd : info.isDir <;>
        simp [firstExisting, firstRegular, fileExists_of_ok fs f info hf, hd, hf, hrest]
    | error e =>
      have he := h f (List.mem_cons_self f rest) e hf
      subst he
      simp [firstExisting, firstRegular, fileExists_of_notExist fs f hf, hf, hrest]

theorem sliceIndex_last (p : List String) (h : p ≠ []) :
    sliceIndex p (p.length - 1) = .ok (p.getLast h) := by
  have hlen : 0 < p.length := List.length_pos.2 h
  simp [sliceIndex, List.getLast_eq_getElem, List.getElem?_eq_getElem (Nat.sub_lt hlen Nat.one_pos)]

theorem paths_ne_nil (homeDir explicitPath : String) (getEnv : String → String) :
    paths homeDir explicitPath getEnv ≠ [] := by
  simp only [paths]
  split_ifs with h1 h2
  · simp
  · intro h; exact h2 (by rw [h]; rfl)
  · simp

/-- On a filesystem where every candidate either stats or does not exist, and with
more than one candidate, `pathForMerge` returns the first regular file, or the last
candidate when there is none. -/
theorem pathForMerge_of_no_other_error (w : World) (explicitPath : String)
    (h : ∀ f ∈ paths w.homeDir explicitPath w.Getenv, ∀ e, w.fs f = .error e → e = .notExist)
    (hlen : (paths w.homeDir explicitPath w.Getenv).length ≠ 1) :
    pathForMerge w explicitPath =
      .ok ((firstRegular w.fs (paths w.homeDir explicitPath w.Getenv)).getD
        ((paths w.homeDir explicitPath w.Getenv).getLast
          (paths_ne_nil w.homeDir explicitPath w.Getenv))) := by
  have hloop := firstExisting_of_no_other_error w.fs _ h
  have hlast := sliceIndex_last _ (paths_ne_nil w.homeDir explicitPath w.Getenv)
  simp only [pathForMerge, if_neg hlen, hloop]
  cases firstRegular w.fs (paths w.homeDir explicitPath w.Getenv) with
  | none => simpa using hlast
  | some f => rfl

/-! ## The candidate list -/

/-- C1: for a non-empty explicit path, `paths` returns exactly the one-element
list holding that path, and the result is the same for every other `getEnv`
and home directory. -/
theorem paths_explicit (homeDir explicitPath : String) (getEnv : String → String)
    (h : explicitPath ≠ "") :
    paths homeDir explicitPath getEnv = [explicitPath] ∧
      ∀ (homeDir2 : String) (getEnv2 : String → String),
        paths homeDir2 explicitPath getEnv2 = paths homeDir explicitPath getEnv := by
  have key : ∀ (hd : String) (ge : String → String), paths hd explicitPath ge = [explicitPath] := by
    intro hd ge
    simp [paths, h]
  exact ⟨key _ _, fun hd ge => (key hd ge).trans (key _ _).symm⟩

theorem paths_explicit_witness :
    "/tmp/kubeconfig" ≠ "" ∧
      paths "/home/user" "/tmp/kubeconfig" (envWith "a:b") = ["/tmp/kubeconfig"] :=
  ⟨by decide, (paths_explicit "/home/user" "/tmp/kubeconfig" (envWith "a:b") (by decide)).1⟩

/-- C2: without an explicit path, when the split `KUBECONFIG` value has a non-empty
entry, `paths` returns the split list with every empty entry and every entry equal
to an earlier one removed, the survivors in their original order. -/
theorem paths_env (homeDir : String) (getEnv : String → String)
    (h : ∃ e ∈ SplitList (getEnv kubeconfigEnv), e ≠ "") :
    paths homeDir "" getEnv = removeEmptyAndRepeated [] (SplitList (getEnv kubeconfigEnv)) := by
  have hne : discardEmptyAndDuplicates (SplitList (getEnv kubeconfigEnv)) ≠ [] := by
    intro hnil
    obtain ⟨e, he, hee⟩ := h
    exact hee ((discardEmptyAndDuplicates_eq_nil _).1 hnil e he)
  have hlen : (discardEmptyAndDuplicates (SplitList (getEnv kubeconfigEnv))).length ≠ 0 := by
    intro h0
    exact hne (List.length_eq_zero.1 h0)
  simp only [paths]
  rw [if_neg (by simp), if_pos hlen]
  exact discardEmptyAndDuplicates_eq_spec _

theorem paths_env_witness :
    (∃ e ∈ SplitList (envWith "a::a:b" kubeconfigEnv), e ≠ "") ∧
      paths "/home/user" "" (envWith "a::a:b") = ["a", "b"] :=
  ⟨⟨"a", by decide, by decide⟩,
    (paths_env "/home/user" (envWith "a::a:b") ⟨"a", by decide, by decide⟩).trans (by decide)⟩

/-- C7: without an explicit path, when the split `KUBECONFIG` value has no non-empty
entry, `paths` returns the one-element list holding the slash-join of the home
directory, `.kube` and `config`. -/
theorem paths_home (homeDir : String) (getEnv : String → String)
    (h : ∀ e ∈ SplitList (getEnv kubeconfigEnv), e = "") :
    paths homeDir "" getEnv = [pathJoin [homeDir, ".kube", "config"]] := by
  have hnil := (discardEmptyAndDuplicates_eq_nil _).2 h
  simp [paths, hnil]

theorem paths_home_witness :
    (∀ e ∈ SplitList (envWith "::" kubeconfigEnv), e = "") ∧
      paths "/home/user" "" (envWith "::") = ["/home/user/.kube/config"] :=
  ⟨by decide, (paths_home "/home/user" (envWith "::") (by decide)).trans (by decide)⟩

/-- C9: `paths` never returns an empty list, so the access `p[len(p)-1]` in
`pathForMerge` is in bounds and `pathForMerge` never panics on an index. -/
theorem paths_length_pos (homeDir explicitPath : String) (getEnv : String → String)
    (fs : FileSystem) :
    1 ≤ (paths homeDir explicitPath getEnv).length ∧
      (∃ s, sliceIndex (paths homeDir explicitPath getEnv)
        ((paths homeDir explicitPath getEnv).length - 1) = .ok s) ∧
      pathForMerge ⟨getEnv, homeDir, fs⟩ explicitPath ≠ .error .indexOutOfRange := by
  have hne := paths_ne_nil homeDir explicitPath getEnv
  have hlast := sliceIndex_last _ hne
  refine ⟨List.length_pos.2 hne, ⟨_, hlast⟩, ?_⟩
  simp only [pathForMerge]
  split_ifs with h1
  · rw [h1] at hlast
    simp only [Nat.sub_self] at hlast
    rw [hlast]
    intro hc; cases hc
  · cases hfe : firstExisting fs (paths homeDir explicitPath getEnv) with
    | error e =>
      have := firstExisting_error fs _ e hfe
      subst this
      intro hc; cases hc
    | ok r =>
      cases r with
      | none => simp only; rw [hlast]; intro hc; cases hc
      | some f => intro hc; cases hc

/-- C10: the list `paths` returns holds no empty string and no two equal elements. -/
theorem paths_no_empty_nodup (homeDir explicitPath : String) (getEnv : String → String) :
    ¬ "" ∈ paths homeDir explicitPath getEnv ∧ (paths homeDir explicitPath getEnv).Nodup := by
  simp only [paths]
  split_ifs with h1 h2
  · exact ⟨by simpa using fun hc : "" = explicitPath => h1 hc.symm, List.nodup_singleton _⟩
  · refine ⟨?_, nodup_discardEmptyAndDuplicates _⟩
    intro hmem
    exact ((mem_discardEmptyAndDuplicates _ _).1 hmem).1 rfl
  · exact ⟨by simpa using Ne.symm (pathJoin_home_ne_empty homeDir), List.nodup_singleton _⟩

/-! ## The merge target -/

/-- C3: with candidates `/etc/passwd/config` and `/tmp/kubeconfig`, where the stat of
the first fails with ENOTDIR and the second is a regular file, `pathForMerge` panics on
the nil `info` instead of returning the first candidate that is a regular file. -/
theorem pathForMerge_panics_before_regular_file :
    paths worldNotDirFirst.homeDir "" worldNotDirFirst.Getenv =
        ["/etc/passwd/config", "/tmp/kubeconfig"] ∧
      worldNotDirFirst.fs "/etc/passwd/config" = .error .notDir ∧
      worldNotDirFirst.fs "/tmp/kubeconfig" = .ok ⟨false⟩ ∧
      firstRegular worldNotDirFirst.fs ["/etc/passwd/config", "/tmp/kubeconfig"] =
        some "/tmp/kubeconfig" ∧
      pathForMerge worldNotDirFirst "" = .error .nilDereference :=
  ⟨by decide, rfl, rfl, by decide, rfl⟩

/-- C4: with three candidates none of which is a regular file, the first failing its
stat with a permission error, `pathForMerge` panics on the nil `info` instead of
returning the last candidate. -/
theorem pathForMerge_panics_when_none_exists :
    paths worldNoneExists.homeDir "" worldNoneExists.Getenv =
        ["/root/.kube/config", "/tmp/a", "/tmp/b"] ∧
      firstRegular worldNoneExists.fs ["/root/.kube/config", "/tmp/a", "/tmp/b"] = none ∧
      pathForMerge worldNoneExists "" = .error .nilDereference :=
  ⟨by decide, by decide, rfl⟩

/-- C5: a stat that fails with a permission error makes `fileExists` panic on the nil
`info` rather than return false, and `pathForMerge` panics with it rather than fall
back to the last candidate. -/
theorem fileExists_panics_on_permission_error :
    worldPermissionSecond.fs "/root/.kube/config" = .error .permission ∧
      fileExists worldPermissionSecond.fs "/root/.kube/config" = .error .nilDereference ∧
      paths worldPermissionSecond.homeDir "" worldPermissionSecond.Getenv =
        ["/tmp/missing", "/root/.kube/config"] ∧
      pathForMerge worldPermissionSecond "" = .error .nilDereference :=
  ⟨rfl, rfl, by decide, rfl⟩

/-- C6: when `paths` gives exactly one candidate, `pathForMerge` returns it on every
filesystem, so without consulting the filesystem. -/
theorem pathForMerge_single (homeDir explicitPath : String) (getEnv : String → String)
    (p : String) (h : paths homeDir explicitPath getEnv = [p]) (fs : FileSystem) :
    pathForMerge ⟨getEnv, homeDir, fs⟩ explicitPath = .ok p := by
  simp [pathForMerge, h, sliceIndex]

theorem pathForMerge_single_witness :
    paths "/home/user" "/tmp/kubeconfig" (envWith "a:b") = ["/tmp/kubeconfig"] ∧
      pathForMerge ⟨envWith "a:b", "/home/user", fun _ => .error .permission⟩
        "/tmp/kubeconfig" = .ok "/tmp/kubeconfig" :=
  ⟨by decide, pathForMerge_single "/home/user" "/tmp/kubeconfig" (envWith "a:b")
    "/tmp/kubeconfig" (by decide) (fun _ => .error .permission)⟩

/-- C8: `fileExists` is false on a directory, and `pathForMerge` gives the same
result as on the filesystem from which that directory is absent. -/
theorem pathForMerge_directory_skipped (w : World) (explicitPath d : String)
    (h : w.fs d = .ok ⟨true⟩) :
    fileExists w.fs d = .ok false ∧
      pathForMerge w explicitPath =
        pathForMerge ⟨w.Getenv, w.homeDir, removeFile w.fs d⟩ explicitPath := by
  have hd : fileExists w.fs d = .ok false := by
    simpa using fileExists_of_ok w.fs d ⟨true⟩ h
  refine ⟨hd, ?_⟩
  have hall : ∀ f, fileExists w.fs f = fileExists (removeFile w.fs d) f := by
    intro f
    by_cases hf : f = d
    · subst hf
      rw [hd]
      exact (fileExists_of_notExist _ _ (by simp [removeFile])).symm
    · simp [fileExists, osStat, removeFile, hf]
  have hloop := firstExisting_congr w.fs (removeFile w.fs d)
    (paths w.homeDir explicitPath w.Getenv) (fun f _ => hall f)
  simp only [pathForMerge, hloop]

theorem pathForMerge_directory_skipped_witness :
    worldDirFirst.fs "/tmp/dir" = .ok ⟨true⟩ ∧
      fileExists worldDirFirst.fs "/tmp/dir" = .ok false ∧
      pathForMerge worldDirFirst "" = .ok "/tmp/file" ∧
      pathForMerge ⟨worldDirFirst.Getenv, worldDirFirst.homeDir,
        removeFile worldDirFirst.fs "/tmp/dir"⟩ "" = .ok "/tmp/file" :=
  ⟨rfl, (pathForMerge_directory_skipped worldDirFirst "" "/tmp/dir" rfl).1, rfl,
    (pathForMerge_directory_skipped worldDirFirst "" "/tmp/dir" rfl).2 ▸ rfl⟩

/-! ## Further properties of the candidates -/

theorem firstExisting_mem (fs : FileSystem) (p : List String) (f : String)
    (h : firstExisting fs p = .ok (some f)) : f ∈ p := by
  induction p with
  | nil => simp [firstExisting] at h
  | cons g rest ih =>
    unfold firstExisting at h
    cases hg : fileExists fs g with
    | error e => rw [hg] at h; simp at h
    | ok b =>
      rw [hg] at h
      cases b with
      | true =>
        simp only [Except.ok.injEq, Option.some.injEq] at h
        exact h ▸ List.mem_cons_self g rest
      | false => exact List.mem_cons_of_mem g (ih h)

theorem sliceIndex_mem (p : List String) (i : Nat) (s : String)
    (h : sliceIndex p i = .ok s) : s ∈ p := by
  unfold sliceIndex at h
  cases hg : p.get? i with
  | none => rw [hg] at h; simp at h
  | some t =>
    rw [hg] at h
    simp only [Except.ok.injEq] at h
    exact h ▸ List.get?_mem hg

theorem keepFold_length_le (acc ps : List String) :
    (keepFold acc ps).length ≤ acc.length + ps.length := by
  induction ps generalizing acc with
  | nil => simp [keepFold]
  | cons p ps ih =>
    have hstep : keepFold acc (p :: ps) =
        keepFold (if p ≠ "" ∧ ¬ p ∈ acc then acc ++ [p] else acc) ps := by
      simp [keepFold]
    rw [hstep]
    refine le_trans (ih _) ?_
    split_ifs <;> simp only [List.length_append, List.length_cons, List.length_nil] <;> omega

theorem keepFold_of_nodup (acc ps : List String) (hnd : (acc ++ ps).Nodup)
    (hne : ¬ "" ∈ ps) : keepFold acc ps = acc ++ ps := by
  induction ps generalizing acc with
  | nil => simp [keepFold]
  | cons p ps ih =>
    have hstep : keepFold acc (p :: ps) =
        keepFold (if p ≠ "" ∧ ¬ p ∈ acc then acc ++ [p] else acc) ps := by
      simp [keepFold]
    have hp : p ≠ "" := fun hp => hne (hp ▸ List.mem_cons_self p ps)
    have hpacc : ¬ p ∈ acc := by
      intro hmem
      have := (List.nodup_append.1 hnd).2.2
      exact this hmem (List.mem_cons_self p ps)
    rw [hstep, if_pos ⟨hp, hpacc⟩, ih (acc ++ [p])]
    · simp
    · simpa using hnd
    · exact fun hmem => hne (List.mem_cons_of_mem p hmem)

/-- C19: whenever `pathForMerge` returns a path, that path is one of the candidates
computed by `paths`. -/
theorem pathForMerge_mem_paths (w : World) (explicitPath s : String)
    (h : pathForMerge w explicitPath = .ok s) :
    s ∈ paths w.homeDir explicitPath w.Getenv := by
  simp only [pathForMerge] at h
  split_ifs at h with h1
  · exact sliceIndex_mem _ _ _ h
  · cases hfe : firstExisting w.fs (paths w.homeDir explicitPath w.Getenv) with
    | error e => rw [hfe] at h; simp at h
    | ok r =>
      rw [hfe] at h
      cases r with
      | none => exact sliceIndex_mem _ _ _ h
      | some f =>
        simp only [Except.ok.injEq] at h
        exact h ▸ firstExisting_mem _ _ _ hfe

theorem pathForMerge_mem_paths_witness :
    pathForMerge worldDirFirst "" = .ok "/tmp/file" ∧
      "/tmp/file" ∈ paths worldDirFirst.homeDir "" worldDirFirst.Getenv :=
  ⟨rfl, pathForMerge_mem_paths worldDirFirst "" "/tmp/file" rfl⟩

/-- C20: `discardEmptyAndDuplicates` returns a list no longer than its input, holding
exactly the non-empty strings of the input, and leaves its own result unchanged. -/
theorem discardEmptyAndDuplicates_shrinks_idempotent (xs : List String) :
    (discardEmptyAndDuplicates xs).length ≤ xs.length ∧
      (∀ x, x ∈ discardEmptyAndDuplicates xs ↔ x ≠ "" ∧ x ∈ xs) ∧
      discardEmptyAndDuplicates (discardEmptyAndDuplicates xs) = discardEmptyAndDuplicates xs := by
  refine ⟨?_, mem_discardEmptyAndDuplicates xs, ?_⟩
  · rw [discardEmptyAndDuplicates_eq_keepFold]
    simpa using keepFold_length_le [] xs
  · rw [discardEmptyAndDuplicates_eq_keepFold (discardEmptyAndDuplicates xs)]
    have h := keepFold_of_nodup [] (discardEmptyAndDuplicates xs)
      (by simpa using nodup_discardEmptyAndDuplicates xs)
      (fun hmem => ((mem_discardEmptyAndDuplicates xs "").1 hmem).1 rfl)
    simpa using h

end kubeconfig

namespace v1alpha3

/-! ## Evaluation of the decoders -/

theorem Mount_UnmarshalJSON_string {σ ρ : Type} (N : String → Option Int)
    (codec : DefaultCodec σ ρ) (m : Mount σ) (rest : ρ) (s : String) (hs : s ≠ "")
    (hrest : (codec.unmarshal rest m.siblings).2 = false) :
    Mount.UnmarshalJSON N codec m (.object ⟨.string s, rest⟩) =
      match N s with
      | none =>
        .ok (⟨m.Propagation, (codec.unmarshal rest m.siblings).1⟩,
          some (.errorf "unknown propagation value: %s" (.string s)))
      | some val => .ok (⟨val, (codec.unmarshal rest m.siblings).1⟩, none) := by
  simp only [Mount.UnmarshalJSON, jsonUnmarshal, hrest]
  simp [hs]

theorem PortMapping_UnmarshalJSON_string {σ ρ : Type} (N : String → Option Int)
    (ToUpper : String → String) (codec : DefaultCodec σ ρ) (p : PortMapping σ) (rest : ρ)
    (s : String) (hs : s ≠ "") (hrest : (codec.unmarshal rest p.siblings).2 = false) :
    PortMapping.UnmarshalJSON N ToUpper codec p (.object ⟨.string s, rest⟩) =
      match N (ToUpper s) with
      | none =>
        .ok (⟨p.Protocol, (codec.unmarshal rest p.siblings).1⟩,
          some (.errorf "unknown protocol value: %s" (.string s)))
      | some val => .ok (⟨val, (codec.unmarshal rest p.siblings).1⟩, none) := by
  simp only [PortMapping.UnmarshalJSON, jsonUnmarshal, hrest]
  simp [hs]

theorem Mount_UnmarshalJSON_empty {σ ρ : Type} (N : String → Option Int)
    (codec : DefaultCodec σ ρ) (m : Mount σ) (o : Object ρ)
    (hf : o.field = .absent ∨ o.field = .string "")
    (hrest : (codec.unmarshal o.rest m.siblings).2 = false) :
    Mount.UnmarshalJSON N codec m (.object o) =
      .ok (⟨m.Propagation, (codec.unmarshal o.rest m.siblings).1⟩, none) := by
  rcases hf with hf | hf <;> simp [Mount.UnmarshalJSON, jsonUnmarshal, hrest, hf]

theorem PortMapping_UnmarshalJSON_empty {σ ρ : Type} (N : String → Option Int)
    (ToUpper : String → String) (codec : DefaultCodec σ ρ) (p : PortMapping σ) (o : Object ρ)
    (hf : o.field = .absent ∨ o.field = .string "")
    (hrest : (codec.unmarshal o.rest p.siblings).2 = false) :
    PortMapping.UnmarshalJSON N ToUpper codec p (.object o) =
      .ok (⟨p.Protocol, (codec.unmarshal o.rest p.siblings).1⟩, none) := by
  rcases hf with hf | hf <;> simp [PortMapping.UnmarshalJSON, jsonUnmarshal, hrest, hf]

theorem jsonUnmarshal_object {σ ρ : Type} (codec : DefaultCodec σ ρ) (o : Object ρ)
    (aux : Aux σ) :
    ∃ fld e, jsonUnmarshal codec (.object o) aux =
      (some ⟨fld, (codec.unmarshal o.rest aux.siblings).1⟩, e) := by
  obtain ⟨f, rest⟩ := o
  cases f <;> exact ⟨_, _, rfl⟩

theorem Mount_UnmarshalJSON_siblings {σ ρ : Type} (N : String → Option Int)
    (codec : DefaultCodec σ ρ) (t : Mount σ) (o : Object ρ) (r : Mount σ × Option Error)
    (h : Mount.UnmarshalJSON N codec t (.object o) = .ok r) :
    r.1.siblings = (codec.unmarshal o.rest t.siblings).1 := by
  obtain ⟨fld, e, hj⟩ := jsonUnmarshal_object codec o ⟨"", t.siblings⟩
  unfold Mount.UnmarshalJSON at h
  rw [hj] at h
  cases e with
  | some err =>
    simp only [Except.ok.injEq] at h
    rw [← h]
  | none =>
    simp only at h
    split_ifs at h with hf
    · cases hN : N fld with
      | none =>
        rw [hN] at h
        simp only [Except.ok.injEq] at h
        rw [← h]
      | some val =>
        rw [hN] at h
        simp only [Except.ok.injEq] at h
        rw [← h]
    · simp only [Except.ok.injEq] at h
      rw [← h]

theorem PortMapping_UnmarshalJSON_siblings {σ ρ : Type} (N : String → Option Int)
    (ToUpper : String → String) (codec : DefaultCodec σ ρ) (t : PortMapping σ) (o : Object ρ)
    (r : PortMapping σ × Option Error)
    (h : PortMapping.UnmarshalJSON N ToUpper codec t (.object o) = .ok r) :
    r.1.siblings = (codec.unmarshal o.rest t.siblings).1 := by
  obtain ⟨fld, e, hj⟩ := jsonUnmarshal_object codec o ⟨"", t.siblings⟩
  unfold PortMapping.UnmarshalJSON at h
  rw [hj] at h
  cases e with
  | some err =>
    simp only [Except.ok.injEq] at h
    rw [← h]
  | none =>
    simp only at h
    split_ifs at h with hf
    · cases hN : N (ToUpper fld) with
      | none =>
        rw [hN] at h
        simp only [Except.ok.injEq] at h
        rw [← h]
      | some val =>
        rw [hN] at h
        simp only [Except.ok.injEq] at h
        rw [← h]
    · simp only [Except.ok.injEq] at h
      rw [← h]

theorem Mount_UnmarshalJSON_error_cases {σ ρ : Type} (N : String → Option Int)
    (codec : DefaultCodec σ ρ) (m m2 : Mount σ) (data : Data ρ) (e : Error)
    (h : Mount.UnmarshalJSON N codec m data = .ok (m2, some e)) :
    ((jsonUnmarshal codec data ⟨"", m.siblings⟩).2 = some .json ∧ e = .json) ∨
      ∃ rest s, data = .object ⟨.string s, rest⟩ ∧ s ≠ "" ∧ N s = none ∧
        e = .errorf "unknown propagation value: %s" (.string s) := by
  cases data with
  | invalid =>
    left
    simp [Mount.UnmarshalJSON, jsonUnmarshal] at h
    exact ⟨by simp [jsonUnmarshal], by first | exact h.2 | exact h.2.symm⟩
  | null => simp [Mount.UnmarshalJSON, jsonUnmarshal] at h
  | nonObject =>
    left
    simp [Mount.UnmarshalJSON, jsonUnmarshal] at h
    exact ⟨by simp [jsonUnmarshal], by first | exact h.2 | exact h.2.symm⟩
  | object o =>
    obtain ⟨f, rest⟩ := o
    cases hb : (codec.unmarshal rest m.siblings).2 with
    | true =>
      left
      cases f <;> simp [Mount.UnmarshalJSON, jsonUnmarshal, hb] at h <;>
        exact ⟨by simp [jsonUnmarshal, hb], by first | exact h.2 | exact h.2.symm⟩
    | false =>
      cases f with
      | absent => simp [Mount.UnmarshalJSON, jsonUnmarshal, hb] at h
      | null => simp [Mount.UnmarshalJSON, jsonUnmarshal, hb] at h
      | mistyped =>
        left
        simp [Mount.UnmarshalJSON, jsonUnmarshal, hb] at h
        exact ⟨by simp [jsonUnmarshal], by first | exact h.2 | exact h.2.symm⟩
      | string s =>
        right
        by_cases hs : s = ""
        · simp [Mount.UnmarshalJSON, jsonUnmarshal, hb, hs] at h
        · rw [Mount_UnmarshalJSON_string N codec m rest s hs hb] at h
          cases hN : N s with
          | some v => simp [hN] at h
          | none =>
            simp only [hN, Except.ok.injEq, Prod.mk.injEq, Option.some.injEq] at h
            exact ⟨rest, s, rfl, hs, hN, h.2.symm⟩

theorem PortMapping_UnmarshalJSON_error_cases {σ ρ : Type} (N : String → Option Int)
    (ToUpper : String → String) (codec : DefaultCodec σ ρ) (p p2 : PortMapping σ)
    (data : Data ρ) (e : Error)
    (h : PortMapping.UnmarshalJSON N ToUpper codec p data = .ok (p2, some e)) :
    ((jsonUnmarshal codec data ⟨"", p.siblings⟩).2 = some .json ∧ e = .json) ∨
      ∃ rest s, data = .object ⟨.string s, rest⟩ ∧ s ≠ "" ∧ N (ToUpper s) = none ∧
        e = .errorf "unknown protocol value: %s" (.string s) := by
  cases data with
  | invalid =>
    left
    simp [PortMapping.UnmarshalJSON, jsonUnmarshal] at h
    exact ⟨by simp [jsonUnmarshal], by first | exact h.2 | exact h.2.symm⟩
  | null => simp [PortMapping.UnmarshalJSON, jsonUnmarshal] at h
  | nonObject =>
    left
    simp [PortMapping.UnmarshalJSON, jsonUnmarshal] at h
    exact ⟨by simp [jsonUnmarshal], by first | exact h.2 | exact h.2.symm⟩
  | object o =>
    obtain ⟨f, rest⟩ := o
    cases hb : (codec.unmarshal rest p.siblings).2 with
    | true =>
      left
      cases f <;> simp [PortMapping.UnmarshalJSON, jsonUnmarshal, hb] at h <;>
        exact ⟨by simp [jsonUnmarshal, hb], by first | exact h.2 | exact h.2.symm⟩
    | false =>
      cases f with
      | absent => simp [PortMapping.UnmarshalJSON, jsonUnmarshal, hb] at h
      | null => simp [PortMapping.UnmarshalJSON, jsonUnmarshal, hb] at h
      | mistyped =>
        left
        simp [PortMapping.UnmarshalJSON, jsonUnmarshal, hb] at h
        exact ⟨by simp [jsonUnmarshal], by first | exact h.2 | exact h.2.symm⟩
      | string s =>
        right
        by_cases hs : s = ""
        · simp [PortMapping.UnmarshalJSON, jsonUnmarshal, hb, hs] at h
        · rw [PortMapping_UnmarshalJSON_string N ToUpper codec p rest s hs hb] at h
          cases hN : N (ToUpper s) with
          | some v => simp [hN] at h
          | none =>
            simp only [hN, Except.ok.injEq, Prod.mk.injEq, Option.some.injEq] at h
            exact ⟨rest, s, rfl, hs, hN, h.2.symm⟩

theorem Mount_UnmarshalJSON_json_error {σ ρ : Type} (N : String → Option Int)
    (codec : DefaultCodec σ ρ) (m : Mount σ) (data : Data ρ)
    (h : (jsonUnmarshal codec data ⟨"", m.siblings⟩).2 = some .json) :
    ∃ m2, Mount.UnmarshalJSON N codec m data = .ok (m2, some .json) := by
  unfold Mount.UnmarshalJSON
  rcases hj : jsonUnmarshal codec data ⟨"", m.siblings⟩ with ⟨a, e⟩
  rw [hj] at h
  simp only at h
  subst h
  cases a with
  | none => exact ⟨_, rfl⟩
  | some aux => exact ⟨_, rfl⟩

theorem PortMapping_UnmarshalJSON_json_error {σ ρ : Type} (N : String → Option Int)
    (ToUpper : String → String) (codec : DefaultCodec σ ρ) (p : PortMapping σ) (data : Data ρ)
    (h : (jsonUnmarshal codec data ⟨"", p.siblings⟩).2 = some .json) :
    ∃ p2, PortMapping.UnmarshalJSON N ToUpper codec p data = .ok (p2, some .json) := by
  unfold PortMapping.UnmarshalJSON
  rcases hj : jsonUnmarshal codec data ⟨"", p.siblings⟩ with ⟨a, e⟩
  rw [hj] at h
  simp only at h
  subst h
  cases a with
  | none => exact ⟨_, rfl⟩
  | some aux => exact ⟨_, rfl⟩

/-! ## Decoding -/

/-- C12: for a document that decodes without error and whose propagation field is a
non-empty string `s`, `Mount.UnmarshalJSON` succeeds iff `s` itself is a key of the
name-to-value table and then sets `Propagation` to the value of `s`; otherwise it
returns the error "unknown propagation value" carrying `s` and leaves `Propagation`
as it was. -/
theorem Mount_UnmarshalJSON_lookup {σ ρ : Type} (N : String → Option Int)
    (codec : DefaultCodec σ ρ) (m : Mount σ) (rest : ρ) (s : String) (hs : s ≠ "")
    (hrest : (codec.unmarshal rest m.siblings).2 = false) :
    ((∃ m2, Mount.UnmarshalJSON N codec m (.object ⟨.string s, rest⟩) = .ok (m2, none)) ↔
        ∃ v, N s = some v) ∧
      (∀ v, N s = some v →
        Mount.UnmarshalJSON N codec m (.object ⟨.string s, rest⟩) =
          .ok (⟨v, (codec.unmarshal rest m.siblings).1⟩, none)) ∧
      (N s = none →
        Mount.UnmarshalJSON N codec m (.object ⟨.string s, rest⟩) =
          .ok (⟨m.Propagation, (codec.unmarshal rest m.siblings).1⟩,
            some (.errorf "unknown propagation value: %s" (.string s)))) := by
  have key := Mount_UnmarshalJSON_string N codec m rest s hs hrest
  refine ⟨?_, ?_, ?_⟩
  · cases hN : N s with
    | none => rw [key, hN]; simp
    | some v => rw [key, hN]; simp
  · intro v hv; rw [key, hv]
  · intro hn; rw [key, hn]

theorem Mount_UnmarshalJSON_lookup_witness :
    Mount.UnmarshalJSON specPropagationNameToValue stringFieldCodec ⟨0, ""⟩
        (.object ⟨.string "Bidirectional", .string "/data"⟩) = .ok (⟨2, "/data"⟩, none) ∧
      Mount.UnmarshalJSON specPropagationNameToValue stringFieldCodec ⟨1, ""⟩
        (.object ⟨.string "bidirectional", .string "/data"⟩) =
          .ok (⟨1, "/data"⟩,
            some (.errorf "unknown propagation value: %s" (.string "bidirectional"))) ∧
      Mount.UnmarshalJSON specPropagationNameToValue stringFieldCodec ⟨1, ""⟩
        (.object ⟨.string "bogus", .string "/data"⟩) =
          .ok (⟨1, "/data"⟩, some (.errorf "unknown propagation value: %s" (.string "bogus"))) :=
  ⟨(Mount_UnmarshalJSON_lookup specPropagationNameToValue stringFieldCodec ⟨0, ""⟩
      (.string "/data") "Bidirectional" (by decide) rfl).2.1 2 rfl,
    (Mount_UnmarshalJSON_lookup specPropagationNameToValue stringFieldCodec ⟨1, ""⟩
      (.string "/data") "bidirectional" (by decide) rfl).2.2 rfl,
    (Mount_UnmarshalJSON_lookup specPropagationNameToValue stringFieldCodec ⟨1, ""⟩
      (.string "/data") "bogus" (by decide) rfl).2.2 rfl⟩

/-- C13: for a document that decodes without error and whose protocol field is a
non-empty string `s`, `PortMapping.UnmarshalJSON` succeeds iff the upper-cased `s` is
a key of the name-to-value table and then sets `Protocol` to the value of that key;
otherwise it returns an unknown-value error. A non-empty string with the same
upper-casing decodes to the same receiver, with an error iff `s` gives one. -/
theorem PortMapping_UnmarshalJSON_case_insensitive {σ ρ : Type} (N : String → Option Int)
    (ToUpper : String → String) (codec : DefaultCodec σ ρ) (p : PortMapping σ) (rest : ρ)
    (s : String) (hs : s ≠ "") (hrest : (codec.unmarshal rest p.siblings).2 = false) :
    ((∃ p2, PortMapping.UnmarshalJSON N ToUpper codec p (.object ⟨.string s, rest⟩) =
          .ok (p2, none)) ↔ ∃ v, N (ToUpper s) = some v) ∧
      (∀ v, N (ToUpper s) = some v →
        PortMapping.UnmarshalJSON N ToUpper codec p (.object ⟨.string s, rest⟩) =
          .ok (⟨v, (codec.unmarshal rest p.siblings).1⟩, none)) ∧
      (N (ToUpper s) = none →
        PortMapping.UnmarshalJSON N ToUpper codec p (.object ⟨.string s, rest⟩) =
          .ok (⟨p.Protocol, (codec.unmarshal rest p.siblings).1⟩,
            some (.errorf "unknown protocol value: %s" (.string s)))) ∧
      (∀ s2, s2 ≠ "" → ToUpper s2 = ToUpper s →
        ∀ r, PortMapping.UnmarshalJSON N ToUpper codec p (.object ⟨.string s, rest⟩) = .ok r →
          ∃ r2, PortMapping.UnmarshalJSON N ToUpper codec p (.object ⟨.string s2, rest⟩) = .ok r2 ∧
            r2.1.Protocol = r.1.Protocol ∧ r2.1.siblings = r.1.siblings ∧
            (r2.2 = none ↔ r.2 = none)) := by
  have key := PortMapping_UnmarshalJSON_string N ToUpper codec p rest s hs hrest
  refine ⟨?_, ?_, ?_, ?_⟩
  · cases hN : N (ToUpper s) with
    | none => rw [key, hN]; simp
    | some v => rw [key, hN]; simp
  · intro v hv; rw [key, hv]
  · intro hn; rw [key, hn]
  · intro s2 hs2 hup r hr
    have key2 := PortMapping_UnmarshalJSON_string N ToUpper codec p rest s2 hs2 hrest
    rw [hup] at key2
    rw [key] at hr
    cases hN : N (ToUpper s) with
    | none =>
      rw [hN] at hr key2
      simp only [Except.ok.injEq] at hr
      exact ⟨_, key2, by simp [← hr]⟩
    | some v =>
      rw [hN] at hr key2
      simp only [Except.ok.injEq] at hr
      exact ⟨_, key2, by simp [← hr]⟩

theorem PortMapping_UnmarshalJSON_case_insensitive_witness :
    PortMapping.UnmarshalJSON specProtocolNameToValue asciiToUpper stringFieldCodec ⟨7, ""⟩
        (.object ⟨.string "tcp", .absent⟩) = .ok (⟨0, ""⟩, none) ∧
      PortMapping.UnmarshalJSON specProtocolNameToValue asciiToUpper stringFieldCodec ⟨7, ""⟩
        (.object ⟨.string "TCP", .absent⟩) = .ok (⟨0, ""⟩, none) ∧
      PortMapping.UnmarshalJSON specProtocolNameToValue asciiToUpper stringFieldCodec ⟨7, ""⟩
        (.object ⟨.string "xyz", .absent⟩) =
          .ok (⟨7, ""⟩, some (.errorf "unknown protocol value: %s" (.string "xyz"))) :=
  ⟨(PortMapping_UnmarshalJSON_case_insensitive specProtocolNameToValue asciiToUpper
      stringFieldCodec ⟨7, ""⟩ .absent "tcp" (by decide) rfl).2.1 0 (by decide),
    (PortMapping_UnmarshalJSON_case_insensitive specProtocolNameToValue asciiToUpper
      stringFieldCodec ⟨7, ""⟩ .absent "TCP" (by decide) rfl).2.1 0 (by decide),
    (PortMapping_UnmarshalJSON_case_insensitive specProtocolNameToValue asciiToUpper
      stringFieldCodec ⟨7, ""⟩ .absent "xyz" (by decide) rfl).2.2.1 (by decide)⟩

/-- C14: for both codecs, decoding a document that decodes without error and whose
enum field is absent or the empty string returns no error and leaves the enum field
of the target as it was; the enum field is left as it was even when the call returns
an error. -/
theorem UnmarshalJSON_empty_field_noop {σ ρ : Type} (Nm Np : String → Option Int)
    (ToUpper : String → String) (codec : DefaultCodec σ ρ) (o : Object ρ)
    (hf : o.field = .absent ∨ o.field = .string "") :
    (∀ m : Mount σ, (codec.unmarshal o.rest m.siblings).2 = false →
        Mount.UnmarshalJSON Nm codec m (.object o) =
          .ok (⟨m.Propagation, (codec.unmarshal o.rest m.siblings).1⟩, none)) ∧
      (∀ p : PortMapping σ, (codec.unmarshal o.rest p.siblings).2 = false →
        PortMapping.UnmarshalJSON Np ToUpper codec p (.object o) =
          .ok (⟨p.Protocol, (codec.unmarshal o.rest p.siblings).1⟩, none)) ∧
      (∀ (m : Mount σ) r, Mount.UnmarshalJSON Nm codec m (.object o) = .ok r →
        r.1.Propagation = m.Propagation) ∧
      (∀ (p : PortMapping σ) r, PortMapping.UnmarshalJSON Np ToUpper codec p (.object o) = .ok r →
        r.1.Protocol = p.Protocol) := by
  refine ⟨fun m h => Mount_UnmarshalJSON_empty Nm codec m o hf h,
    fun p h => PortMapping_UnmarshalJSON_empty Np ToUpper codec p o hf h, ?_, ?_⟩
  · intro m r hr
    cases hb : (codec.unmarshal o.rest m.siblings).2 with
    | false =>
      rw [Mount_UnmarshalJSON_empty Nm codec m o hf hb] at hr
      simp only [Except.ok.injEq] at hr
      rw [← hr]
    | true =>
      rcases hf with hf | hf <;>
        simp [Mount.UnmarshalJSON, jsonUnmarshal, hb, hf] at hr <;> rw [← hr]
  · intro p r hr
    cases hb : (codec.unmarshal o.rest p.siblings).2 with
    | false =>
      rw [PortMapping_UnmarshalJSON_empty Np ToUpper codec p o hf hb] at hr
      simp only [Except.ok.injEq] at hr
      rw [← hr]
    | true =>
      rcases hf with hf | hf <;>
        simp [PortMapping.UnmarshalJSON, jsonUnmarshal, hb, hf] at hr <;> rw [← hr]

theorem UnmarshalJSON_empty_field_noop_witness :
    Mount.UnmarshalJSON specPropagationNameToValue stringFieldCodec ⟨2, "/data"⟩
        (.object ⟨.absent, .absent⟩) = .ok (⟨2, "/data"⟩, none) ∧
      PortMapping.UnmarshalJSON specProtocolNameToValue asciiToUpper stringFieldCodec
        ⟨0, ""⟩ (.object ⟨.string "", .string "127.0.0.1"⟩) = .ok (⟨0, "127.0.0.1"⟩, none) :=
  ⟨(UnmarshalJSON_empty_field_noop specPropagationNameToValue specProtocolNameToValue
      asciiToUpper stringFieldCodec ⟨.absent, .absent⟩ (Or.inl rfl)).1 ⟨2, "/data"⟩ rfl,
    (UnmarshalJSON_empty_field_noop specPropagationNameToValue specProtocolNameToValue
      asciiToUpper stringFieldCodec ⟨.string "", .string "127.0.0.1"⟩ (Or.inr rfl)).2.1
      ⟨0, ""⟩ rfl⟩

/-! ## Encoding -/

/-- C15: for both codecs, `MarshalJSON` fails iff the enum value is not a key of the
value-to-name table; the error then is the unknown-value error carrying the number
and no document is produced; on success the enum field of the document is the
table's name for the value. -/
theorem MarshalJSON_unknown_value {σ ρ : Type} (Vm Vp : Int → Option String)
    (codec : DefaultCodec σ ρ) (m : Mount σ) (p : PortMapping σ) :
    (((∃ e, Mount.MarshalJSON Vm codec m = .error e) ↔ Vm m.Propagation = none) ∧
        (∀ e, Mount.MarshalJSON Vm codec m = .error e →
          e = .errorf "unknown propagation value: %v" (.int m.Propagation)) ∧
        (∀ name, Vm m.Propagation = some name →
          Mount.MarshalJSON Vm codec m =
            .ok (.object ⟨.string name, codec.marshal m.siblings⟩))) ∧
      (((∃ e, PortMapping.MarshalJSON Vp codec p = .error e) ↔ Vp p.Protocol = none) ∧
        (∀ e, PortMapping.MarshalJSON Vp codec p = .error e →
          e = .errorf "unknown protocol value: %v" (.int p.Protocol)) ∧
        (∀ name, Vp p.Protocol = some name →
          PortMapping.MarshalJSON Vp codec p =
            .ok (.object ⟨.string name, codec.marshal p.siblings⟩))) := by
  constructor
  · cases h : Vm m.Propagation with
    | none => simp [Mount.MarshalJSON, h]
    | some name => simp [Mount.MarshalJSON, h, jsonMarshal]
  · cases h : Vp p.Protocol with
    | none => simp [PortMapping.MarshalJSON, h]
    | some name => simp [PortMapping.MarshalJSON, h, jsonMarshal]

theorem MarshalJSON_unknown_value_witness :
    Mount.MarshalJSON specPropagationValueToName stringFieldCodec ⟨2, "/data"⟩ =
        .ok (.object ⟨.string "Bidirectional", .string "/data"⟩) ∧
      PortMapping.MarshalJSON specProtocolValueToName stringFieldCodec ⟨0, ""⟩ =
        .ok (.object ⟨.string "TCP", .absent⟩) ∧
      Mount.MarshalJSON specPropagationValueToName stringFieldCodec ⟨7, "/data"⟩ =
        .error (.errorf "unknown propagation value: %v" (.int 7)) :=
  ⟨(MarshalJSON_unknown_value specPropagationValueToName specProtocolValueToName
      stringFieldCodec ⟨2, "/data"⟩ ⟨0, ""⟩).1.2.2 "Bidirectional" rfl,
    (MarshalJSON_unknown_value specPropagationValueToName specProtocolValueToName
      stringFieldCodec ⟨2, "/data"⟩ ⟨0, ""⟩).2.2.2 "TCP" rfl,
    rfl⟩

/-! ## Round trips -/

/-- C11, as stated, fails: with a value-to-name table that names the value 0 by the
empty string (and the inverse name-to-value table), encoding a mount with
propagation 0 and decoding the output into a target with propagation 1 returns no
error and leaves 1; with a table whose canonical name is `tcp` (mapped back by the
inverse table), decoding the encoded port mapping looks up `TCP` and fails. -/
theorem decode_encode_fails_for_empty_or_lower_case_name :
    (emptyNameValueToName 0 = some "" ∧ emptyNameNameToValue "" = some 0 ∧
        Mount.MarshalJSON emptyNameValueToName stringFieldCodec ⟨0, "/data"⟩ =
          .ok (.object ⟨.string "", .string "/data"⟩) ∧
        Mount.UnmarshalJSON emptyNameNameToValue stringFieldCodec ⟨1, ""⟩
          (.object ⟨.string "", .string "/data"⟩) = .ok (⟨1, "/data"⟩, none)) ∧
      (lowerCaseValueToName 0 = some "tcp" ∧ lowerCaseNameToValue "tcp" = some 0 ∧
        PortMapping.MarshalJSON lowerCaseValueToName stringFieldCodec ⟨0, "127.0.0.1"⟩ =
          .ok (.object ⟨.string "tcp", .string "127.0.0.1"⟩) ∧
        PortMapping.UnmarshalJSON lowerCaseNameToValue asciiToUpper stringFieldCodec ⟨1, ""⟩
          (.object ⟨.string "tcp", .string "127.0.0.1"⟩) =
            .ok (⟨1, "127.0.0.1"⟩,
              some (.errorf "unknown protocol value: %s" (.string "tcp")))) :=
  ⟨⟨rfl, rfl, rfl, rfl⟩, ⟨rfl, rfl, rfl, rfl⟩⟩

/-- C11, amended: for a value `v` whose canonical name is non-empty, encoding a value
with enum field `v` and decoding the output into any target returns no error and
leaves the enum field of the target equal to `v`, given that the name-to-value table
maps the canonical name (for the protocol: the upper-cased canonical name) back to
`v`. -/
theorem decode_encode_enum {σ ρ : Type} (codec : DefaultCodec σ ρ) (v : Int) (name : String)
    (hname : name ≠ "") :
    (∀ (V : Int → Option String) (N : String → Option Int) (m t : Mount σ),
        m.Propagation = v → V v = some name → N name = some v →
        ∃ doc t2, Mount.MarshalJSON V codec m = .ok doc ∧
          Mount.UnmarshalJSON N codec t doc = .ok (t2, none) ∧ t2.Propagation = v) ∧
      (∀ (V : Int → Option String) (N : String → Option Int) (ToUpper : String → String)
        (p t : PortMapping σ),
        p.Protocol = v → V v = some name → N (ToUpper name) = some v →
        ∃ doc t2, PortMapping.MarshalJSON V codec p = .ok doc ∧
          PortMapping.UnmarshalJSON N ToUpper codec t doc = .ok (t2, none) ∧
          t2.Protocol = v) := by
  constructor
  · intro V N m t hm hV hN
    refine ⟨.object ⟨.string name, codec.marshal m.siblings⟩,
      ⟨v, (codec.unmarshal (codec.marshal m.siblings) t.siblings).1⟩, ?_, ?_, rfl⟩
    · simp [Mount.MarshalJSON, hm, hV, jsonMarshal]
    · rw [Mount_UnmarshalJSON_string N codec t _ name hname (codec.accepts _ _), hN]
  · intro V N ToUpper p t hp hV hN
    refine ⟨.object ⟨.string name, codec.marshal p.siblings⟩,
      ⟨v, (codec.unmarshal (codec.marshal p.siblings) t.siblings).1⟩, ?_, ?_, rfl⟩
    · simp [PortMapping.MarshalJSON, hp, hV, jsonMarshal]
    · rw [PortMapping_UnmarshalJSON_string N ToUpper codec t _ name hname (codec.accepts _ _),
        hN]

theorem decode_encode_enum_witness :
    ∃ doc t2, Mount.MarshalJSON specPropagationValueToName stringFieldCodec ⟨2, "/data"⟩ =
        .ok doc ∧
      Mount.UnmarshalJSON specPropagationNameToValue stringFieldCodec ⟨0, "/old"⟩ doc =
        .ok (t2, none) ∧ t2.Propagation = 2 :=
  (decode_encode_enum stringFieldCodec 2 "Bidirectional" (by decide)).1
    specPropagationValueToName specPropagationNameToValue ⟨2, "/data"⟩ ⟨0, "/old"⟩ rfl rfl rfl

/-- C16, as stated, fails: in a name-to-value table with the empty string as a key,
and the inverse value-to-name table, decoding the name `""` leaves the enum field of
the target at 1, and encoding the target emits `HostToContainer`, not the empty
name; the same holds for the protocol, where the upper-casing of `""` is the key. -/
theorem encode_decode_fails_for_empty_key :
    emptyNameNameToValue "" = some 0 ∧
      (∀ n w, emptyNameNameToValue n = some w → emptyNameValueToName w = some n) ∧
      (Mount.UnmarshalJSON emptyNameNameToValue stringFieldCodec ⟨1, ""⟩
          (.object ⟨.string "", .absent⟩) = .ok (⟨1, ""⟩, none) ∧
        Mount.MarshalJSON emptyNameValueToName stringFieldCodec ⟨1, ""⟩ =
          .ok (.object ⟨.string "HostToContainer", .absent⟩)) ∧
      (emptyNameNameToValue (asciiToUpper "") = some 0 ∧
        PortMapping.UnmarshalJSON emptyNameNameToValue asciiToUpper stringFieldCodec ⟨1, ""⟩
          (.object ⟨.string "", .absent⟩) = .ok (⟨1, ""⟩, none) ∧
        PortMapping.MarshalJSON emptyNameValueToName stringFieldCodec ⟨1, ""⟩ =
          .ok (.object ⟨.string "HostToContainer", .absent⟩)) := by
  refine ⟨rfl, ?_, ⟨rfl, rfl⟩, ⟨rfl, rfl, rfl⟩⟩
  intro n w h
  unfold emptyNameNameToValue at h
  unfold emptyNameValueToName
  split_ifs at h with h1 h2
  · cases h; simp [h1]
  · cases h; simp [h2]

/-- C16, amended: for a non-empty valid name `s` (a key of the name-to-value table for
the propagation, a string whose upper-casing is a key for the protocol) in a document
that decodes without error, decoding into a target and then encoding the target
emits `s` for the propagation and the upper-cased `s` for the protocol, given that
the value-to-name table is the inverse of the name-to-value table. -/
theorem encode_decode_canonical {σ ρ : Type} (codec : DefaultCodec σ ρ) (rest : ρ)
    (s : String) (hs : s ≠ "") :
    (∀ (V : Int → Option String) (N : String → Option Int) (t : Mount σ) (v : Int),
        N s = some v → (∀ n w, N n = some w → V w = some n) →
        (codec.unmarshal rest t.siblings).2 = false →
        ∃ t2, Mount.UnmarshalJSON N codec t (.object ⟨.string s, rest⟩) = .ok (t2, none) ∧
          Mount.MarshalJSON V codec t2 =
            .ok (.object ⟨.string s, codec.marshal t2.siblings⟩)) ∧
      (∀ (V : Int → Option String) (N : String → Option Int) (ToUpper : String → String)
        (t : PortMapping σ) (v : Int),
        N (ToUpper s) = some v → (∀ n w, N n = some w → V w = some n) →
        (codec.unmarshal rest t.siblings).2 = false →
        ∃ t2, PortMapping.UnmarshalJSON N ToUpper codec t (.object ⟨.string s, rest⟩) =
            .ok (t2, none) ∧
          PortMapping.MarshalJSON V codec t2 =
            .ok (.object ⟨.string (ToUpper s), codec.marshal t2.siblings⟩)) := by
  constructor
  · intro V N t v hN hinv hrest
    refine ⟨⟨v, (codec.unmarshal rest t.siblings).1⟩, ?_, ?_⟩
    · rw [Mount_UnmarshalJSON_string N codec t rest s hs hrest, hN]
    · simp [Mount.MarshalJSON, hinv s v hN, jsonMarshal]
  · intro V N ToUpper t v hN hinv hrest
    refine ⟨⟨v, (codec.unmarshal rest t.siblings).1⟩, ?_, ?_⟩
    · rw [PortMapping_UnmarshalJSON_string N ToUpper codec t rest s hs hrest, hN]
    · simp [PortMapping.MarshalJSON, hinv (ToUpper s) v hN, jsonMarshal]

theorem encode_decode_canonical_witness :
    ∃ t2, PortMapping.UnmarshalJSON specProtocolNameToValue asciiToUpper stringFieldCodec
        ⟨7, ""⟩ (.object ⟨.string "tcp", .absent⟩) = .ok (t2, none) ∧
      PortMapping.MarshalJSON specProtocolValueToName stringFieldCodec t2 =
        .ok (.object ⟨.string (asciiToUpper "tcp"), stringFieldCodec.marshal t2.siblings⟩) :=
  (encode_decode_canonical stringFieldCodec .absent "tcp" (by decide)).2
    specProtocolValueToName specProtocolNameToValue asciiToUpper ⟨7, ""⟩ 0 (by decide)
    (by
      intro n w h
      unfold specProtocolNameToValue at h
      unfold specProtocolValueToName
      split_ifs at h with h1
      cases h; simp [h1])
    rfl

/-! ## The other fields -/

/-- C17, as stated, fails: with a string field written with `omitempty`, a mount whose
field is empty and whose propagation is valid is encoded without that member, and
decoding the output into a target whose field holds `/old` leaves `/old`; and with
the empty string as the canonical name of the value 0, decoding the encoded port
mapping into a target with protocol 1 leaves 1. -/
theorem decode_encode_not_identity :
    (specPropagationValueToName 2 = some "Bidirectional" ∧
        specPropagationNameToValue "Bidirectional" = some 2 ∧
        Mount.MarshalJSON specPropagationValueToName stringFieldCodec ⟨2, ""⟩ =
          .ok (.object ⟨.string "Bidirectional", .absent⟩) ∧
        Mount.UnmarshalJSON specPropagationNameToValue stringFieldCodec ⟨0, "/old"⟩
          (.object ⟨.string "Bidirectional", .absent⟩) = .ok (⟨2, "/old"⟩, none)) ∧
      (emptyNameValueToName 0 = some "" ∧ emptyNameNameToValue (asciiToUpper "") = some 0 ∧
        PortMapping.MarshalJSON emptyNameValueToName stringFieldCodec ⟨0, "127.0.0.1"⟩ =
          .ok (.object ⟨.string "", .string "127.0.0.1"⟩) ∧
        PortMapping.UnmarshalJSON emptyNameNameToValue asciiToUpper stringFieldCodec ⟨1, ""⟩
          (.object ⟨.string "", .string "127.0.0.1"⟩) = .ok (⟨1, "127.0.0.1"⟩, none)) :=
  ⟨⟨rfl, rfl, rfl, rfl⟩, ⟨rfl, rfl, rfl, rfl⟩⟩

/-- C17, amended: encoding emits the other fields as default serialization emits them,
and decoding an object leaves in the other fields what default deserialization of
the object writes into them, whatever the enum field holds. For a value whose enum
value has a non-empty canonical name that the name-to-value table maps back (for the
protocol: after upper-casing), decoding the encoded value into a target gives the
value itself on all fields when default deserialization of the emitted fields
restores them in that target. -/
theorem siblings_pass_through {σ ρ : Type} (codec : DefaultCodec σ ρ) :
    (∀ (V : Int → Option String) (m : Mount σ) (doc : Data ρ),
        Mount.MarshalJSON V codec m = .ok doc →
        ∃ name, doc = .object ⟨.string name, codec.marshal m.siblings⟩) ∧
      (∀ (V : Int → Option String) (p : PortMapping σ) (doc : Data ρ),
        PortMapping.MarshalJSON V codec p = .ok doc →
        ∃ name, doc = .object ⟨.string name, codec.marshal p.siblings⟩) ∧
      (∀ (N : String → Option Int) (t : Mount σ) (o : Object ρ) r,
        Mount.UnmarshalJSON N codec t (.object o) = .ok r →
        r.1.siblings = (codec.unmarshal o.rest t.siblings).1) ∧
      (∀ (N : String → Option Int) (ToUpper : String → String) (t : PortMapping σ)
        (o : Object ρ) r,
        PortMapping.UnmarshalJSON N ToUpper codec t (.object o) = .ok r →
        r.1.siblings = (codec.unmarshal o.rest t.siblings).1) ∧
      (∀ (V : Int → Option String) (N : String → Option Int) (m t : Mount σ) (name : String),
        V m.Propagation = some name → name ≠ "" → N name = some m.Propagation →
        (codec.unmarshal (codec.marshal m.siblings) t.siblings).1 = m.siblings →
        ∃ doc, Mount.MarshalJSON V codec m = .ok doc ∧
          Mount.UnmarshalJSON N codec t doc = .ok (m, none)) ∧
      (∀ (V : Int → Option String) (N : String → Option Int) (ToUpper : String → String)
        (p t : PortMapping σ) (name : String),
        V p.Protocol = some name → name ≠ "" → N (ToUpper name) = some p.Protocol →
        (codec.unmarshal (codec.marshal p.siblings) t.siblings).1 = p.siblings →
        ∃ doc, PortMapping.MarshalJSON V codec p = .ok doc ∧
          PortMapping.UnmarshalJSON N ToUpper codec t doc = .ok (p, none)) := by
  refine ⟨?_, ?_, ?_, ?_, ?_, ?_⟩
  · intro V m doc h
    unfold Mount.MarshalJSON at h
    cases hV : V m.Propagation with
    | none => rw [hV] at h; simp at h
    | some name =>
      rw [hV] at h
      simp only [Except.ok.injEq, jsonMarshal] at h
      exact ⟨name, h.symm⟩
  · intro V p doc h
    unfold PortMapping.MarshalJSON at h
    cases hV : V p.Protocol with
    | none => rw [hV] at h; simp at h
    | some name =>
      rw [hV] at h
      simp only [Except.ok.injEq, jsonMarshal] at h
      exact ⟨name, h.symm⟩
  · intro N t o r h
    exact Mount_UnmarshalJSON_siblings N codec t o r h
  · intro N ToUpper t o r h
    exact PortMapping_UnmarshalJSON_siblings N ToUpper codec t o r h
  · intro V N m t name hV hname hN hsib
    refine ⟨.object ⟨.string name, codec.marshal m.siblings⟩, ?_, ?_⟩
    · simp [Mount.MarshalJSON, hV, jsonMarshal]
    · rw [Mount_UnmarshalJSON_string N codec t _ name hname (codec.accepts _ _), hN, hsib]
  · intro V N ToUpper p t name hV hname hN hsib
    refine ⟨.object ⟨.string name, codec.marshal p.siblings⟩, ?_, ?_⟩
    · simp [PortMapping.MarshalJSON, hV, jsonMarshal]
    · rw [PortMapping_UnmarshalJSON_string N ToUpper codec t _ name hname
        (codec.accepts _ _), hN, hsib]

theorem siblings_pass_through_witness :
    ∃ doc, Mount.MarshalJSON specPropagationValueToName stringFieldCodec ⟨2, "/data"⟩ =
        .ok doc ∧
      Mount.UnmarshalJSON specPropagationNameToValue stringFieldCodec ⟨0, "/old"⟩ doc =
        .ok (⟨2, "/data"⟩, none) :=
  (siblings_pass_through stringFieldCodec).2.2.2.2.1 specPropagationValueToName
    specPropagationNameToValue ⟨2, "/data"⟩ ⟨0, "/old"⟩ "Bidirectional" rfl (by decide) rfl rfl

/-! ## The errors -/

/-- C18, as stated, fails: `UnmarshalJSON` returns the error of `json.Unmarshal` on a
text that is not valid JSON, on a JSON value that is not an object, on a propagation
member that is not a string, and on a document whose propagation is a valid name but
whose other member has the wrong type; none of these has an enum field that is a
non-empty name missing from the table. -/
theorem UnmarshalJSON_returns_json_errors :
    Mount.UnmarshalJSON specPropagationNameToValue stringFieldCodec ⟨0, ""⟩ .invalid =
        .ok (⟨0, ""⟩, some .json) ∧
      PortMapping.UnmarshalJSON specProtocolNameToValue asciiToUpper stringFieldCodec ⟨0, ""⟩
        .nonObject = .ok (⟨0, ""⟩, some .json) ∧
      Mount.UnmarshalJSON specPropagationNameToValue stringFieldCodec ⟨0, ""⟩
        (.object ⟨.mistyped, .absent⟩) = .ok (⟨0, ""⟩, some .json) ∧
      specPropagationNameToValue "Bidirectional" = some 2 ∧
      Mount.UnmarshalJSON specPropagationNameToValue stringFieldCodec ⟨0, ""⟩
        (.object ⟨.string "Bidirectional", .mistyped⟩) = .ok (⟨0, ""⟩, some .json) :=
  ⟨rfl, rfl, rfl, rfl, rfl⟩

/-- C18, amended: `MarshalJSON` returns an error exactly when the enum value is not a
key of the value-to-name table. When `UnmarshalJSON` returns an error, either
`json.Unmarshal` failed on the document and the error is its error, or the enum
field of the document is a non-empty name that is not a key of the name-to-value
table (after upper-casing, for the protocol) and the error is the unknown-value
error; and a failing `json.Unmarshal` always makes `UnmarshalJSON` return its
error. -/
theorem codec_errors {σ ρ : Type} (codec : DefaultCodec σ ρ) :
    (∀ (V : Int → Option String) (m : Mount σ),
        (∃ e, Mount.MarshalJSON V codec m = .error e) ↔ V m.Propagation = none) ∧
      (∀ (V : Int → Option String) (p : PortMapping σ),
        (∃ e, PortMapping.MarshalJSON V codec p = .error e) ↔ V p.Protocol = none) ∧
      (∀ (N : String → Option Int) (m m2 : Mount σ) (data : Data ρ) (e : Error),
        Mount.UnmarshalJSON N codec m data = .ok (m2, some e) →
        ((jsonUnmarshal codec data ⟨"", m.siblings⟩).2 = some .json ∧ e = .json) ∨
          ∃ rest s, data = .object ⟨.string s, rest⟩ ∧ s ≠ "" ∧ N s = none ∧
            e = .errorf "unknown propagation value: %s" (.string s)) ∧
      (∀ (N : String → Option Int) (ToUpper : String → String) (p p2 : PortMapping σ)
        (data : Data ρ) (e : Error),
        PortMapping.UnmarshalJSON N ToUpper codec p data = .ok (p2, some e) →
        ((jsonUnmarshal codec data ⟨"", p.siblings⟩).2 = some .json ∧ e = .json) ∨
          ∃ rest s, data = .object ⟨.string s, rest⟩ ∧ s ≠ "" ∧ N (ToUpper s) = none ∧
            e = .errorf "unknown protocol value: %s" (.string s)) ∧
      (∀ (N : String → Option Int) (m : Mount σ) (data : Data ρ),
        (jsonUnmarshal codec data ⟨"", m.siblings⟩).2 = some .json →
        ∃ m2, Mount.UnmarshalJSON N codec m data = .ok (m2, some .json)) ∧
      (∀ (N : String → Option Int) (ToUpper : String → String) (p : PortMapping σ)
        (data : Data ρ),
        (jsonUnmarshal codec data ⟨"", p.siblings⟩).2 = some .json →
        ∃ p2, PortMapping.UnmarshalJSON N ToUpper codec p data = .ok (p2, some .json)) := by
  refine ⟨?_, ?_, ?_, ?_, ?_, ?_⟩
  · intro V m
    cases h : V m.Propagation <;> simp [Mount.MarshalJSON, h]
  · intro V p
    cases h : V p.Protocol <;> simp [PortMapping.MarshalJSON, h]
  · intro N m m2 data e h
    exact Mount_UnmarshalJSON_error_cases N codec m m2 data e h
  · intro N ToUpper p p2 data e h
    exact PortMapping_UnmarshalJSON_error_cases N ToUpper codec p p2 data e h
  · intro N m data h
    exact Mount_UnmarshalJSON_json_error N codec m data h
  · intro N ToUpper p data h
    exact PortMapping_UnmarshalJSON_json_error N ToUpper codec p data h

/-- On the JSON literal `null`, `json.Unmarshal(data, &aux)` sets the pointer `aux` to
nil and returns no error, and the read of `aux.Propagation` that follows panics. -/
theorem Mount_UnmarshalJSON_null {σ ρ : Type} (N : String → Option Int)
    (codec : DefaultCodec σ ρ) (m : Mount σ) :
    Mount.UnmarshalJSON N codec m .null = .error .nilDereference := rfl

end v1alpha3
